import Mathlib

/-!
Verification of the `functional_utilities` TypeScript library.

The embedding models JS values as follows:
* a JS array is a `List α`; JS indexing `arr[i]` is total and yields
  `undefined` out of range, modelled as `Option α` via `List.get?`;
* a JS plain object (and a JS `Map`) is its iteration-ordered entry list
  `List (K × V)`; property assignment `obj[k] = v` / `Map.set` overwrites the
  value in place when the key is present (keeping the key's original
  position, as JS does) and appends otherwise;
* JS numbers used as integer indices/counters are `Int` (`Nat` where the
  source value is a length); the JS remainder operator `%` is `Int.tmod`
  (truncating remainder, sign of the dividend — exactly ECMAScript's `%`);
* a fallible JS computation (one that may `throw`) is an `Except ε α`
  outcome; side-effecting functions are modelled by explicit state passing.
-/

namespace FunctionalUtilities

universe u v w x

/-- JS array indexing `l[i]` (returns `undefined`, i.e. `none`, out of range). -/
def jsIndex {α : Type u} (l : List α) (i : Nat) : Option α :=
  l.get? i

/-- JS `Object`/`Map` key lookup: first (and, for a real JS object, only)
entry with the given key. -/
def lookupEntry {K : Type u} {V : Type v} [DecidableEq K] :
    List (K × V) → K → Option V
  | [], _ => none
  | kv :: rest, k => if kv.1 = k then some kv.2 else lookupEntry rest k

/-- JS property assignment `obj[k] = v` / `Map.set(k, v)`: when the key is
already present the value is overwritten in place (the key keeps its original
iteration position, as in JS); otherwise the entry is appended. -/
def insert_entry {K : Type u} {V : Type v} [DecidableEq K]
    (acc : List (K × V)) (kv : K × V) : List (K × V) :=
  if acc.any (fun p => decide (p.1 = kv.1)) then
    acc.map (fun p => if p.1 = kv.1 then (p.1, kv.2) else p)
  else
    acc ++ [kv]

/-- Embeds `delete obj[k]`. -/
def eraseKey {K : Type u} {V : Type v} [DecidableEq K]
    (obj : List (K × V)) (k : K) : List (K × V) :=
  obj.filter (fun p => decide (¬ p.1 = k))

/-- Embeds `typed_from_entries` (source: `Object.fromEntries(values)`): build an
object by assigning the entries left to right. -/
def typed_from_entries {K : Type u} {V : Type v} [DecidableEq K]
    (values : List (K × V)) : List (K × V) :=
  values.foldl insert_entry []

/-- Embeds `typed_entries` (source: `Object.entries(obj)`): on our object model the
iteration-ordered entry list is the object itself. -/
def typed_entries {K : Type u} {V : Type v} (obj : List (K × V)) : List (K × V) :=
  obj

/-- Embeds `map_keys(obj, func)` from the source:
`typed_from_entries(typed_entries(obj).map(([k, v]) => [func(k), v]))`. -/
def map_keys {K : Type u} {V : Type v} {NK : Type w} [DecidableEq NK]
    (obj : List (K × V)) (func : K → NK) : List (NK × V) :=
  typed_from_entries ((typed_entries obj).map (fun kv => (func kv.1, kv.2)))

/-- Embeds `map_entries(obj, func)` from the source:
`typed_from_entries(typed_entries(obj).map((entry) => func(entry)))`. -/
def map_entries {K : Type u} {V : Type v} {NK : Type w} {NV : Type x} [DecidableEq NK]
    (obj : List (K × V)) (func : K × V → NK × NV) : List (NK × NV) :=
  typed_from_entries ((typed_entries obj).map func)

/-- Embeds `index_by(arr, key)` from the source:
`typed_from_entries(arr.map((v) => [v[key], v]))`; the record field access
`v[key]` is modelled by a key-extraction function. -/
def index_by {T : Type u} {K : Type v} [DecidableEq K]
    (arr : List T) (key : T → K) : List (K × T) :=
  typed_from_entries (arr.map (fun v => (key v, v)))

/-- Embeds `cover(template, obj)` from the source:
`map_entries(template, ([k, v]) => k in obj ? [k, obj[k]] : [k, v])`. -/
def cover {K : Type u} {V : Type v} [DecidableEq K]
    (template : List (K × V)) (obj : List (K × V)) : List (K × V) :=
  map_entries template (fun kv =>
    match lookupEntry obj kv.1 with
    | some w => (kv.1, w)
    | none => kv)

/-- The entry transformation inside `cover`, as a named function (used only
in proofs; `cover` itself is the faithful embedding). -/
def coverFun {K : Type u} {V : Type v} [DecidableEq K]
    (obj : List (K × V)) : K × V → K × V :=
  fun kv =>
    match lookupEntry obj kv.1 with
    | some w => (kv.1, w)
    | none => kv

/-- Embeds `range(arg1, arg2?)` from the source (the current, symmetric version):
one-argument form counts from 0; for `start > end` the descending loop
`for (i = start; i > end; i--)` runs, otherwise the ascending loop
`for (i = start; i < end; i++)`. (`end` is a Lean keyword, so the local is
named `stop`.) -/
def range (arg1 : Int) (arg2 : Option Int) : List Int :=
  let start : Int := match arg2 with | some _ => arg1 | none => 0
  let stop : Int := match arg2 with | some b => b | none => arg1
  if stop < start then
    (List.range (start - stop).toNat).map (fun (k : Nat) => start - (k : Int))
  else
    (List.range (stop - start).toNat).map (fun (k : Nat) => start + (k : Int))

/-- The `minLength` loop inside `zip`:
`minLength = lsts[0].length; for (i = 1; ...) if (lsts[i].length < minLength) ...`. -/
def zip_min {α : Type u} (first : List α) (rest : List (List α)) : Nat :=
  rest.foldl (fun m l => if l.length < m then l.length else m) first.length

/-- Embeds `zip(lsts)` from the source (current version, truncating to the shortest
input): empty input list gives `[]`; otherwise one tuple per index below
`minLength`, each tuple holding `lst[i]` across the inputs. Tuples are
modelled as lists of JS indexing results. -/
def zip {α : Type u} (lsts : List (List α)) : List (List (Option α)) :=
  match lsts with
  | [] => []
  | first :: rest =>
    (List.range (zip_min first rest)).map
      (fun i => (first :: rest).map (fun l => jsIndex l i))

/-- ECMAScript `Array.prototype.slice(start, end)`: negative positions count
from the end, and both positions are clamped to `[0, length]`. -/
def jsSlice {α : Type u} (arr : List α) (start stop : Int) : List α :=
  let len : Int := arr.length
  let s : Int := if start < 0 then max (len + start) 0 else min start len
  let e : Int := if stop < 0 then max (len + stop) 0 else min stop len
  (arr.drop s.toNat).take (e - s).toNat

/-- The `direction` argument of `cycle` (`'left' | 'right'`). -/
inductive Dir : Type
  | left : Dir
  | right : Dir
deriving DecidableEq

/-- Embeds `cycle(arr, n, direction)` from the source: for the empty array return
`[]`; otherwise `n = n % len` (JS `%` = `Int.tmod`), for `'right'`
`n = len - n`, and the result is `arr.slice(n).concat(arr.slice(0, n))`
(the one-argument `slice(n)` has implicit end `len`). -/
def cycle {α : Type u} (arr : List α) (n : Int) (direction : Dir) : List α :=
  let len : Int := arr.length
  if arr.length = 0 then
    []
  else
    let n1 : Int := n.tmod len
    let n2 : Int := match direction with
      | Dir.right => len - n1
      | Dir.left => n1
    jsSlice arr n2 len ++ jsSlice arr 0 n2

/-- Embeds `pairs(lst)` from the source: `zip([lst.slice(0, -1), lst.slice(1)])`. -/
def pairs {α : Type u} (lst : List α) : List (List (Option α)) :=
  zip [jsSlice lst 0 (-1), jsSlice lst 1 lst.length]

/-- Embeds `cyclic_pairs(lst)` from the source: `[]` for the empty list, otherwise
`pairs(lst.concat(lst[0]))`. -/
def cyclic_pairs {α : Type u} (lst : List α) : List (List (Option α)) :=
  match lst with
  | [] => []
  | a :: _ => pairs (lst ++ [a])

/-- Embeds `at(arr, index)` from the source: `undefined` for the empty array,
otherwise `arr[((index % arr.length) + arr.length) % arr.length]`
(JS `%` = `Int.tmod`). -/
def «at» {α : Type u} (arr : List α) (index : Int) : Option α :=
  if arr.length = 0 then
    none
  else
    jsIndex arr (((index.tmod arr.length + arr.length).tmod arr.length).toNat)

/-- Embeds `unthrow(func)` from the source: call `func`; a normal completion `ok v`
yields the result `v`, a thrown error yields `undefined` (`none`). The
fallible call is modelled by its `Except` outcome. -/
def unthrow {ε : Type u} {α : Type v} (func : Except ε α) : Option α :=
  match func with
  | Except.ok v => some v
  | Except.error _ => none

/-- Embeds `object_assign_if_truthy(obj, key, value)` from the source: if `value` is
truthy, `obj[key] = value`, else `delete obj[key]`. JS truthiness is
abstracted by the `truthy` predicate on values. -/
def object_assign_if_truthy {K : Type u} {V : Type v} [DecidableEq K]
    (truthy : V → Bool) (obj : List (K × V)) (key : K) (value : V) : List (K × V) :=
  if truthy value then
    insert_entry obj (key, value)
  else
    eraseKey obj key

/-- Embeds `cached(func, key)` from the source: look `key` up in the memo cache
(the `Map` is an entry list, `Map.get`/`Map.set` are
`lookupEntry`/`insert_entry`); on a hit return the stored value, on a miss
run `func`, store and return its result. The side effects of `func` are
modelled by threading an effect state `σ`, so `func : σ → T × σ`; `cached`
transforms the combined cache-and-effect state. -/
def cached {T : Type u} {σ : Type v} (func : σ → T × σ) (key : String) :
    List (String × T) × σ → T × (List (String × T) × σ) :=
  fun state =>
    match lookupEntry state.1 key with
    | some v => (v, state)
    | none =>
      let r := func state.2
      (r.1, (insert_entry state.1 (key, r.1), r.2))

/-! ### Arithmetic helpers: the JS double-remainder normalisation -/

theorem tmod_gt_neg {i len : Int} (h : 0 < len) : -len < i.tmod len := by
  cases i with
  | ofNat m =>
    have h0 : 0 ≤ Int.tmod (Int.ofNat m) len :=
      Int.tmod_nonneg len (Int.ofNat_nonneg m)
    omega
  | negSucc m =>
    cases len with
    | negSucc k => exact absurd h (not_lt.mpr (le_of_lt (Int.negSucc_lt_zero k)))
    | ofNat k =>
      cases k with
      | zero => exact absurd h (by decide)
      | succ n =>
        have hdef : Int.tmod (Int.negSucc m) (Int.ofNat (n + 1)) =
            -Int.ofNat ((m + 1) % (n + 1)) := rfl
        have hlt : (m + 1) % (n + 1) < n + 1 := Nat.mod_lt _ (Nat.succ_pos n)
        rw [hdef]
        exact Int.neg_lt_neg (Int.ofNat_lt.mpr hlt)

theorem jsmod_eq_emod (i : Int) {len : Int} (h : 0 < len) :
    (i.tmod len + len).tmod len = i % len := by
  have h1 : 0 ≤ i.tmod len + len := by
    have := tmod_gt_neg (i := i) h
    omega
  rw [Int.tmod_eq_emod h1 (le_of_lt h), Int.tmod_def]
  have h2 : i - len * i.tdiv len + len = i + len * (1 - i.tdiv len) := by ring
  rw [h2, Int.add_mul_emod_self_left]

theorem at_eq_get {α : Type u} (s : List α) (i : Int) (h : s ≠ []) :
    «at» s i = s.get? ((i % (s.length : Int)).toNat) := by
  have hl : 0 < (s.length : Int) := by
    have := List.length_pos.mpr h
    omega
  have hne : ¬ s.length = 0 := by omega
  unfold «at»
  rw [if_neg hne, jsmod_eq_emod i hl]
  rfl

theorem at_add_len_emod {α : Type u} (s : List α) (i j : Int)
    (hmod : i % (s.length : Int) = j % (s.length : Int)) :
    «at» s i = «at» s j := by
  rcases eq_or_ne s [] with rfl | h
  · rfl
  · rw [at_eq_get s i h, at_eq_get s j h, hmod]

/-- C5: `at([], i)` is the missing marker for every integer `i`, and for every
sequence `s` and integer `i`, `at(s, i) = at(s, i + length(s))`: cyclic
indexing is periodic modulo the length. -/
theorem at_empty_and_periodic {α : Type u} :
    (∀ i : Int, «at» ([] : List α) i = none) ∧
    (∀ (s : List α) (i : Int), «at» s i = «at» s (i + (s.length : Int))) := by
  constructor
  · intro i
    rfl
  · intro s i
    refine at_add_len_emod s i (i + (s.length : Int)) ?_
    have := Int.add_mul_emod_self_left (a := i) (b := (s.length : Int)) (c := 1)
    simp only [Int.mul_one] at this
    omega

/-- C9: `unthrow(f)` returns `f`'s result when `f` completes normally and the
missing marker when `f` fails with any error; as a total Lean function it
never raises. -/
theorem unthrow_spec {ε : Type u} {α : Type v} :
    (∀ v : α, unthrow (ε := ε) (Except.ok v) = some v) ∧
    (∀ e : ε, unthrow (α := α) (Except.error e) = none) :=
  ⟨fun _ => rfl, fun _ => rfl⟩

/-! ### `range` -/

theorem range_some (a b : Int) :
    range a (some b) =
      if b < a then (List.range (a - b).toNat).map (fun (k : Nat) => a - (k : Int))
      else (List.range (b - a).toNat).map (fun (k : Nat) => a + (k : Int)) := rfl

theorem range_length (a b : Int) : (range a (some b)).length = (b - a).natAbs := by
  rw [range_some]
  split
  · rw [List.length_map, List.length_range]
    omega
  · rw [List.length_map, List.length_range]
    omega

theorem range_get?_asc {a b : Int} (hab : a ≤ b) {i : Nat} (h : (i : Int) < b - a) :
    (range a (some b)).get? i = some (a + i) := by
  rw [range_some, if_neg (by omega), List.get?_eq_getElem?, List.getElem?_map,
    List.getElem?_range (by omega : i < (b - a).toNat)]
  rfl

theorem range_get?_desc {a b : Int} (hab : b < a) {i : Nat} (h : (i : Int) < a - b) :
    (range a (some b)).get? i = some (a - i) := by
  rw [range_some, if_pos hab, List.get?_eq_getElem?, List.getElem?_map,
    List.getElem?_range (by omega : i < (a - b).toNat)]
  rfl

/-- C2: `range(n, n)` is empty for every integer `n`; `range(a, b)` has length
`|b - a|` and is strictly monotonic with step `+1` when `a ≤ b` and `-1`
when `a > b`. -/
theorem range_spec :
    (∀ n : Int, range n (some n) = []) ∧
    (∀ a b : Int, (range a (some b)).length = (b - a).natAbs) ∧
    (∀ (a b : Int) (i : Nat), i + 1 < (range a (some b)).length →
      (range a (some b)).get? (i + 1) =
        ((range a (some b)).get? i).map (fun x => x + (if a ≤ b then 1 else -1))) := by
  refine ⟨?_, range_length, ?_⟩
  · intro n
    rw [range_some, if_neg (lt_irrefl n)]
    simp
  · intro a b i h
    rw [range_length] at h
    rcases le_or_lt a b with hab | hab
    · rw [range_get?_asc hab (by omega), range_get?_asc hab (by omega), if_pos hab]
      simp only [Option.map_some']
      congr 1
      push_cast
      ring
    · rw [range_get?_desc hab (by omega), range_get?_desc hab (by omega),
        if_neg (by omega)]
      simp only [Option.map_some']
      congr 1
      push_cast
      ring

theorem range_spec_witness :
    (0 + 1 < (range 0 (some 3)).length) ∧
    (range 0 (some 3)).get? (0 + 1) =
      ((range 0 (some 3)).get? 0).map (fun x => x + (if (0 : Int) ≤ 3 then 1 else -1)) :=
  ⟨by decide, range_spec.2.2 0 3 0 (by decide)⟩

/-! ### `zip` -/

theorem foldl_min_le_init {α : Type u} (rest : List (List α)) (init : Nat) :
    rest.foldl (fun m l => if l.length < m then l.length else m) init ≤ init := by
  induction rest generalizing init with
  | nil => simp
  | cons hd tl ih =>
    simp only [List.foldl_cons]
    refine le_trans (ih _) ?_
    split <;> omega

theorem foldl_min_le_mem {α : Type u} (rest : List (List α)) (init : Nat) :
    ∀ l ∈ rest,
      rest.foldl (fun m l => if l.length < m then l.length else m) init ≤ l.length := by
  induction rest generalizing init with
  | nil => intro l hl; cases hl
  | cons hd tl ih =>
    intro l hl
    simp only [List.foldl_cons]
    rcases List.mem_cons.mp hl with rfl | hl'
    · refine le_trans (foldl_min_le_init tl _) ?_
      split <;> omega
    · exact ih _ l hl'

theorem foldl_min_attained {α : Type u} (rest : List (List α)) (init : Nat) :
    rest.foldl (fun m l => if l.length < m then l.length else m) init = init ∨
      ∃ l ∈ rest, rest.foldl (fun m l => if l.length < m then l.length else m) init
        = l.length := by
  induction rest generalizing init with
  | nil => exact Or.inl rfl
  | cons hd tl ih =>
    simp only [List.foldl_cons]
    rcases ih (if hd.length < init then hd.length else init) with h | ⟨l, hl, he⟩
    · by_cases hc : hd.length < init
      · exact Or.inr ⟨hd, List.mem_cons_self hd tl, by rw [h, if_pos hc]⟩
      · exact Or.inl (by rw [h, if_neg hc])
    · exact Or.inr ⟨l, List.mem_cons_of_mem hd hl, he⟩

theorem zip_cons {α : Type u} (first : List α) (rest : List (List α)) :
    zip (first :: rest) =
      (List.range (zip_min first rest)).map
        (fun i => (first :: rest).map (fun l => jsIndex l i)) := rfl

theorem zip_cons_length {α : Type u} (first : List α) (rest : List (List α)) :
    (zip (first :: rest)).length = zip_min first rest := by
  rw [zip_cons, List.length_map, List.length_range]

/-- C1: `zip` of a nonempty collection of sequences has length equal to the
minimum of the input lengths (it is bounded by each input's length and attains
one of them); `zip` of zero sequences is empty; and if any input is empty the
result is empty. -/
theorem zip_length_min {α : Type u} :
    (zip ([] : List (List α)) = []) ∧
    (∀ lsts : List (List α), lsts ≠ [] →
      (∀ l ∈ lsts, (zip lsts).length ≤ l.length) ∧
      (∃ l ∈ lsts, (zip lsts).length = l.length)) ∧
    (∀ lsts : List (List α), [] ∈ lsts → zip lsts = []) := by
  refine ⟨rfl, ?_, ?_⟩
  · rintro (_ | ⟨first, rest⟩) h
    · exact absurd rfl h
    refine ⟨?_, ?_⟩
    · intro l hl
      rw [zip_cons_length]
      rcases List.mem_cons.mp hl with rfl | hl'
      · exact foldl_min_le_init rest l.length
      · exact foldl_min_le_mem rest first.length l hl'
    · rw [zip_cons_length]
      rcases foldl_min_attained rest first.length with he | ⟨l, hl, he⟩
      · exact ⟨first, List.mem_cons_self first rest, he⟩
      · exact ⟨l, List.mem_cons_of_mem first hl, he⟩
  · rintro (_ | ⟨first, rest⟩) hmem
    · cases hmem
    · have hz : zip_min first rest = 0 := by
        rcases List.mem_cons.mp hmem with he | hmem'
        · have h0 := foldl_min_le_init rest first.length
          have h1 : first.length = 0 := by rw [← he]; rfl
          unfold zip_min
          omega
        · have h0 := foldl_min_le_mem rest first.length [] hmem'
          simp only [List.length_nil, Nat.le_zero] at h0
          unfold zip_min
          exact h0
      rw [zip_cons, hz]
      rfl

theorem zip_length_min_witness :
    ((∀ l ∈ ([[0, 1], [2]] : List (List Nat)), (zip [[0, 1], [2]]).length ≤ l.length) ∧
      (∃ l ∈ ([[0, 1], [2]] : List (List Nat)), (zip [[0, 1], [2]]).length = l.length)) ∧
    zip ([[], [0]] : List (List Nat)) = [] :=
  ⟨zip_length_min.2.1 [[0, 1], [2]] (by decide),
    zip_length_min.2.2 [[], [0]] (by decide)⟩

/-! ### Association-list (JS object) machinery -/

section Entries

variable {K : Type u} {V : Type v} [DecidableEq K]

theorem lookupEntry_nil (k : K) : lookupEntry ([] : List (K × V)) k = none := rfl

theorem lookupEntry_cons (kv : K × V) (rest : List (K × V)) (k : K) :
    lookupEntry (kv :: rest) k = if kv.1 = k then some kv.2 else lookupEntry rest k := rfl

theorem lookupEntry_append (l1 l2 : List (K × V)) (k : K) :
    lookupEntry (l1 ++ l2) k = (lookupEntry l1 k).or (lookupEntry l2 k) := by
  induction l1 with
  | nil => rw [List.nil_append, lookupEntry_nil, Option.none_or]
  | cons kv t ih =>
    rw [List.cons_append, lookupEntry_cons, lookupEntry_cons]
    by_cases h : kv.1 = k
    · rw [if_pos h, if_pos h, Option.or_some]
    · rw [if_neg h, if_neg h, ih]

theorem lookupEntry_isSome_iff (l : List (K × V)) (k : K) :
    (lookupEntry l k).isSome ↔ ∃ p ∈ l, p.1 = k := by
  induction l with
  | nil => simp [lookupEntry_nil]
  | cons kv t ih =>
    rw [lookupEntry_cons]
    by_cases h : kv.1 = k
    · simp only [if_pos h, Option.isSome_some, true_iff]
      exact ⟨kv, List.mem_cons_self kv t, h⟩
    · rw [if_neg h, ih]
      constructor
      · rintro ⟨p, hp, hpk⟩
        exact ⟨p, List.mem_cons_of_mem kv hp, hpk⟩
      · rintro ⟨p, hp, hpk⟩
        rcases List.mem_cons.mp hp with rfl | hp'
        · exact absurd hpk h
        · exact ⟨p, hp', hpk⟩

theorem mem_keys_iff_lookupEntry (l : List (K × V)) (k : K) :
    k ∈ l.map Prod.fst ↔ (lookupEntry l k).isSome := by
  rw [lookupEntry_isSome_iff, List.mem_map]

theorem lookupEntry_map {β : Type w} {NK : Type x} {NV : Type v} [DecidableEq NK]
    (l : List β) (f : β → NK × NV) (k : NK) :
    lookupEntry (l.map f) k =
      (l.find? (fun b => decide ((f b).1 = k))).map (fun b => (f b).2) := by
  induction l with
  | nil => rfl
  | cons b t ih =>
    by_cases h : (f b).1 = k
    · rw [List.map_cons, lookupEntry_cons, if_pos h,
        List.find?_cons_of_pos _ (by simpa using h), Option.map_some']
    · rw [List.map_cons, lookupEntry_cons, if_neg h,
        List.find?_cons_of_neg _ (by simpa using h), ih]

theorem lookupEntry_eq_find (l : List (K × V)) (k : K) :
    lookupEntry l k = (l.find? (fun p => decide (p.1 = k))).map Prod.snd := by
  have h := lookupEntry_map l id k
  rw [List.map_id] at h
  exact h

theorem lookupEntry_insert (acc : List (K × V)) (kv : K × V) (k : K) :
    lookupEntry (insert_entry acc kv) k =
      if kv.1 = k then some kv.2 else lookupEntry acc k := by
  unfold insert_entry
  by_cases hany : acc.any (fun p => decide (p.1 = kv.1))
  · rw [if_pos hany, lookupEntry_map]
    have hpred : (fun p : K × V => decide ((if p.1 = kv.1 then (p.1, kv.2) else p).1 = k))
        = (fun p : K × V => decide (p.1 = k)) := by
      funext p
      by_cases h : p.1 = kv.1 <;> simp [h]
    rw [hpred]
    by_cases hk : kv.1 = k
    · subst hk
      obtain ⟨p, hp, hd⟩ := List.any_eq_true.mp hany
      have hfs : (acc.find? (fun p => decide (p.1 = kv.1))).isSome :=
        List.find?_isSome.mpr ⟨p, hp, hd⟩
      obtain ⟨p0, hfind⟩ := Option.isSome_iff_exists.mp hfs
      rw [if_pos rfl, hfind, Option.map_some']
      have hp0 : p0.1 = kv.1 := by
        have := List.find?_some hfind
        simpa using this
      rw [if_pos hp0]
    · rw [if_neg hk, lookupEntry_eq_find]
      cases hfind : acc.find? (fun p => decide (p.1 = k)) with
      | none => rfl
      | some p0 =>
        have hp0 : p0.1 = k := by
          have := List.find?_some hfind
          simpa using this
        rw [Option.map_some', Option.map_some', if_neg (by rw [hp0]; exact fun he => hk he.symm)]
  · rw [if_neg hany, lookupEntry_append]
    by_cases hk : kv.1 = k
    · have hnone : lookupEntry acc k = none := by
        cases hs : lookupEntry acc k with
        | none => rfl
        | some v =>
          obtain ⟨p, hp, hpk⟩ := (lookupEntry_isSome_iff acc k).mp (by rw [hs]; rfl)
          exact absurd (List.any_eq_true.mpr ⟨p, hp, decide_eq_true (by rw [hpk, hk])⟩) hany
      rw [hnone, Option.none_or, lookupEntry_cons, if_pos hk, if_pos hk]
    · have h1 : lookupEntry [kv] k = none := by
        rw [lookupEntry_cons, if_neg hk, lookupEntry_nil]
      rw [h1, Option.or_none, if_neg hk]

theorem keys_insert_entry (acc : List (K × V)) (kv : K × V) :
    (insert_entry acc kv).map Prod.fst =
      if kv.1 ∈ acc.map Prod.fst then acc.map Prod.fst
      else acc.map Prod.fst ++ [kv.1] := by
  unfold insert_entry
  by_cases hany : acc.any (fun p => decide (p.1 = kv.1))
  · obtain ⟨p, hp, hd⟩ := List.any_eq_true.mp hany
    have hmem : kv.1 ∈ acc.map Prod.fst :=
      List.mem_map.mpr ⟨p, hp, of_decide_eq_true hd⟩
    rw [if_pos hany, if_pos hmem, List.map_map]
    refine List.map_congr_left ?_
    intro p' _
    by_cases h : p'.1 = kv.1 <;> simp [h]
  · have hmem : kv.1 ∉ acc.map Prod.fst := by
      intro hm
      obtain ⟨p, hp, hfp⟩ := List.mem_map.mp hm
      exact hany (List.any_eq_true.mpr ⟨p, hp, decide_eq_true hfp⟩)
    rw [if_neg hany, if_neg hmem, List.map_append]
    rfl

theorem nodup_keys_insert_entry (acc : List (K × V)) (kv : K × V)
    (h : (acc.map Prod.fst).Nodup) :
    ((insert_entry acc kv).map Prod.fst).Nodup := by
  rw [keys_insert_entry]
  by_cases hm : kv.1 ∈ acc.map Prod.fst
  · rw [if_pos hm]
    exact h
  · rw [if_neg hm]
    refine h.append (List.nodup_singleton kv.1) ?_
    intro x hx hx'
    rw [List.mem_singleton] at hx'
    subst hx'
    exact hm hx

theorem foldl_insert_lookup (l : List (K × V)) :
    ∀ (acc : List (K × V)) (k : K),
      lookupEntry (l.foldl insert_entry acc) k =
        (lookupEntry l.reverse k).or (lookupEntry acc k) := by
  induction l with
  | nil =>
    intro acc k
    rw [List.foldl_nil, List.reverse_nil, lookupEntry_nil, Option.none_or]
  | cons kv t ih =>
    intro acc k
    rw [List.foldl_cons, ih, List.reverse_cons, lookupEntry_append, lookupEntry_insert,
      Option.or_assoc]
    congr 1
    rw [lookupEntry_cons, lookupEntry_nil]
    by_cases h : kv.1 = k
    · rw [if_pos h, if_pos h, Option.or_some]
    · rw [if_neg h, if_neg h, Option.none_or]

theorem typed_from_entries_lookup (l : List (K × V)) (k : K) :
    lookupEntry (typed_from_entries l) k = lookupEntry l.reverse k := by
  unfold typed_from_entries
  rw [foldl_insert_lookup, lookupEntry_nil, Option.or_none]

theorem typed_from_entries_keys_nodup (l : List (K × V)) :
    ((typed_from_entries l).map Prod.fst).Nodup := by
  suffices h : ∀ acc : List (K × V), (acc.map Prod.fst).Nodup →
      ((l.foldl insert_entry acc).map Prod.fst).Nodup by
    exact h [] List.nodup_nil
  induction l with
  | nil =>
    intro acc h
    exact h
  | cons kv t ih =>
    intro acc h
    rw [List.foldl_cons]
    exact ih _ (nodup_keys_insert_entry acc kv h)

theorem typed_from_entries_mem_keys (l : List (K × V)) (k : K) :
    k ∈ (typed_from_entries l).map Prod.fst ↔ k ∈ l.map Prod.fst := by
  rw [mem_keys_iff_lookupEntry, typed_from_entries_lookup, ← mem_keys_iff_lookupEntry,
    List.map_reverse, List.mem_reverse]

theorem insert_entry_of_not_mem (acc : List (K × V)) (kv : K × V)
    (h : kv.1 ∉ acc.map Prod.fst) :
    insert_entry acc kv = acc ++ [kv] := by
  have hc : ¬ acc.any (fun p => decide (p.1 = kv.1)) = true := by
    intro hany
    obtain ⟨p, hp, hd⟩ := List.any_eq_true.mp hany
    exact h (List.mem_map.mpr ⟨p, hp, of_decide_eq_true hd⟩)
  unfold insert_entry
  rw [if_neg hc]

theorem typed_from_entries_self (l : List (K × V)) (h : (l.map Prod.fst).Nodup) :
    typed_from_entries l = l := by
  unfold typed_from_entries
  suffices haux : ∀ acc : List (K × V), ((acc ++ l).map Prod.fst).Nodup →
      l.foldl insert_entry acc = acc ++ l by
    have := haux [] (by simpa using h)
    simpa using this
  clear h
  induction l with
  | nil =>
    intro acc _
    rw [List.foldl_nil, List.append_nil]
  | cons kv t ih =>
    intro acc hnd
    have hmem : kv.1 ∉ acc.map Prod.fst := by
      intro hm
      rw [List.map_append, List.map_cons] at hnd
      obtain ⟨-, -, hdisj⟩ := List.nodup_append.mp hnd
      exact hdisj hm (List.mem_cons_self kv.1 (t.map Prod.fst))
    have hnd2 : (((acc ++ [kv]) ++ t).map Prod.fst).Nodup := by
      rw [List.append_assoc, List.singleton_append]
      exact hnd
    rw [List.foldl_cons, insert_entry_of_not_mem acc kv hmem, ih (acc ++ [kv]) hnd2,
      List.append_assoc, List.singleton_append]

theorem lookupEntry_erase_ne {K : Type u} {V : Type v} [DecidableEq K]
    (obj : List (K × V)) (k k' : K) (h : k' ≠ k) :
    lookupEntry (eraseKey obj k) k' = lookupEntry obj k' := by
  induction obj with
  | nil => rfl
  | cons p t ih =>
    show lookupEntry ((p :: t).filter (fun q => decide (¬ q.1 = k))) k' = _
    rw [List.filter_cons]
    by_cases hp : p.1 = k
    · rw [if_neg (by simp [hp]), lookupEntry_cons,
        if_neg (by rw [hp]; exact fun he => h he.symm)]
      exact ih
    · rw [if_pos (by simp [hp]), lookupEntry_cons, lookupEntry_cons]
      by_cases hpk : p.1 = k'
      · rw [if_pos hpk, if_pos hpk]
      · rw [if_neg hpk, if_neg hpk]
        exact ih

end Entries

theorem map_entries_eq {K : Type u} {V : Type v} {NK : Type w} {NV : Type x}
    [DecidableEq NK] (obj : List (K × V)) (f : K × V → NK × NV) :
    map_entries obj f = typed_from_entries (obj.map f) := rfl

theorem map_entries_lookup {K : Type u} {V : Type v} {NK : Type w} {NV : Type x}
    [DecidableEq NK] (obj : List (K × V)) (f : K × V → NK × NV) (k : NK) :
    lookupEntry (map_entries obj f) k =
      (obj.reverse.find? (fun kv => decide ((f kv).1 = k))).map (fun kv => (f kv).2) := by
  rw [map_entries_eq, typed_from_entries_lookup, ← List.map_reverse, lookupEntry_map]

theorem cover_eq_map_entries {K : Type u} {V : Type v} [DecidableEq K]
    (template obj : List (K × V)) :
    cover template obj = map_entries template (coverFun obj) := rfl

theorem coverFun_fst {K : Type u} {V : Type v} [DecidableEq K]
    (obj : List (K × V)) (kv : K × V) : (coverFun obj kv).1 = kv.1 := by
  unfold coverFun
  cases h : lookupEntry obj kv.1 <;> simp

/-- C3: each reshape utility built on `typed_from_entries` (`map_entries`,
`map_keys`, `index_by`) produces a result whose keys are exactly the
transformed input keys, without duplicates (so they are in one-to-one
correspondence with the input keys when the transformation is injective on
them), and whose value at each output key comes from the entry processed
last in input iteration order (`find?` on the reversed input):
last-write-wins on key collisions. -/
theorem reshape_last_write_wins {K : Type u} {V : Type v} {NK : Type w} {NV : Type x}
    {T : Type u} [DecidableEq NK] :
    (∀ (obj : List (K × V)) (f : K × V → NK × NV),
      ((map_entries obj f).map Prod.fst).Nodup) ∧
    (∀ (obj : List (K × V)) (f : K × V → NK × NV) (k : NK),
      k ∈ (map_entries obj f).map Prod.fst ↔ ∃ kv ∈ obj, (f kv).1 = k) ∧
    (∀ (obj : List (K × V)) (f : K × V → NK × NV) (k : NK),
      lookupEntry (map_entries obj f) k =
        (obj.reverse.find? (fun kv => decide ((f kv).1 = k))).map (fun kv => (f kv).2)) ∧
    (∀ (obj : List (K × V)) (g : K → NK) (k : NK),
      lookupEntry (map_keys obj g) k =
        (obj.reverse.find? (fun kv => decide (g kv.1 = k))).map Prod.snd) ∧
    (∀ (arr : List T) (key : T → NK) (k : NK),
      lookupEntry (index_by arr key) k =
        arr.reverse.find? (fun v => decide (key v = k))) := by
  refine ⟨?_, ?_, map_entries_lookup, ?_, ?_⟩
  · intro obj f
    rw [map_entries_eq]
    exact typed_from_entries_keys_nodup (obj.map f)
  · intro obj f k
    rw [map_entries_eq, typed_from_entries_mem_keys]
    simp [List.mem_map]
  · intro obj g k
    exact map_entries_lookup obj (fun kv => (g kv.1, kv.2)) k
  · intro arr key k
    show lookupEntry (typed_from_entries (arr.map (fun v => (key v, v)))) k = _
    rw [typed_from_entries_lookup, ← List.map_reverse, lookupEntry_map]
    show (arr.reverse.find? (fun v => decide (key v = k))).map (fun v => v) = _
    cases hfind : arr.reverse.find? (fun v => decide (key v = k)) with
    | none => rfl
    | some v => rfl

/-- C4: `cover(template, overlay)` has exactly the template's key list; at
each key the overlay's value is used when the overlay defines that key and
the template's value otherwise; and `cover(template, {})` equals `template`.
Hypotheses: the template's keys are unique (it models a JS object) and the
overlay's keys are a subset of the template's keys. -/
theorem cover_spec {K : Type u} {V : Type v} [DecidableEq K] :
    ∀ (template obj : List (K × V)),
      (template.map Prod.fst).Nodup →
      (∀ k ∈ obj.map Prod.fst, k ∈ template.map Prod.fst) →
      ((cover template obj).map Prod.fst = template.map Prod.fst ∧
        (∀ (k : K) (w : V), lookupEntry obj k = some w →
          lookupEntry (cover template obj) k = some w) ∧
        (∀ k : K, lookupEntry obj k = none →
          lookupEntry (cover template obj) k = lookupEntry template k) ∧
        cover template ([] : List (K × V)) = template) := by
  intro template obj ht ho
  have hkeys : ∀ o : List (K × V),
      (template.map (coverFun o)).map Prod.fst = template.map Prod.fst := by
    intro o
    rw [List.map_map]
    refine List.map_congr_left ?_
    intro kv _
    exact coverFun_fst o kv
  have hcover : ∀ o : List (K × V), cover template o = template.map (coverFun o) := by
    intro o
    rw [cover_eq_map_entries, map_entries_eq]
    refine typed_from_entries_self _ ?_
    rw [hkeys o]
    exact ht
  have hpredk : ∀ (o : List (K × V)) (k : K),
      (fun kv : K × V => decide ((coverFun o kv).1 = k))
        = (fun kv : K × V => decide (kv.1 = k)) := by
    intro o k
    funext kv
    rw [coverFun_fst o kv]
  refine ⟨?_, ?_, ?_, ?_⟩
  · rw [hcover obj, hkeys obj]
  · intro k w hw
    rw [hcover obj, lookupEntry_map, hpredk obj k]
    have hkt : k ∈ template.map Prod.fst := by
      refine ho k ?_
      rw [mem_keys_iff_lookupEntry, hw]
      rfl
    obtain ⟨p, hp, hpk⟩ := List.mem_map.mp hkt
    have hfs : (template.find? (fun kv : K × V => decide (kv.1 = k))).isSome :=
      List.find?_isSome.mpr ⟨p, hp, decide_eq_true hpk⟩
    obtain ⟨p0, hfind⟩ := Option.isSome_iff_exists.mp hfs
    have hp0 : p0.1 = k := by
      have := List.find?_some hfind
      simpa using this
    rw [hfind, Option.map_some']
    unfold coverFun
    rw [hp0, hw]
  · intro k hnone
    rw [hcover obj, lookupEntry_map, hpredk obj k, lookupEntry_eq_find]
    cases hfind : template.find? (fun kv : K × V => decide (kv.1 = k)) with
    | none => rfl
    | some p0 =>
      have hp0 : p0.1 = k := by
        have := List.find?_some hfind
        simpa using this
      rw [Option.map_some', Option.map_some']
      unfold coverFun
      rw [hp0, hnone]
  · rw [hcover []]
    have hid : coverFun ([] : List (K × V)) = (fun kv => kv) := rfl
    rw [hid, List.map_id']

theorem cover_spec_witness :
    ((cover [(1, 3), (2, 4)] [(2, 7)]).map Prod.fst
        = ([(1, 3), (2, 4)] : List (Nat × Nat)).map Prod.fst ∧
      (∀ (k w : Nat), lookupEntry [(2, 7)] k = some w →
        lookupEntry (cover [(1, 3), (2, 4)] [(2, 7)]) k = some w) ∧
      (∀ k : Nat, lookupEntry [(2, 7)] k = none →
        lookupEntry (cover [(1, 3), (2, 4)] [(2, 7)]) k = lookupEntry [(1, 3), (2, 4)] k) ∧
      cover [(1, 3), (2, 4)] ([] : List (Nat × Nat)) = [(1, 3), (2, 4)]) :=
  cover_spec [(1, 3), (2, 4)] [(2, 7)] (by decide) (by decide)

/-- C10: `object_assign_if_truthy(obj, key, value)` only touches the binding
of `key`: at every other key the mapping still has the same lookup result
(same presence and same value) as before the call. -/
theorem object_assign_if_truthy_frame {K : Type u} {V : Type v} [DecidableEq K] :
    ∀ (truthy : V → Bool) (obj : List (K × V)) (key : K) (value : V) (k : K),
      k ≠ key →
      lookupEntry (object_assign_if_truthy truthy obj key value) k = lookupEntry obj k := by
  intro truthy obj key value k hk
  unfold object_assign_if_truthy
  by_cases htr : truthy value = true
  · rw [if_pos htr, lookupEntry_insert, if_neg (fun he => hk he.symm)]
  · rw [if_neg htr]
    exact lookupEntry_erase_ne obj key k hk

theorem object_assign_if_truthy_frame_witness :
    lookupEntry (object_assign_if_truthy (fun v => decide (v ≠ 0)) [(1, 2), (3, 4)] 3 0) 1
      = lookupEntry [(1, 2), (3, 4)] 1 :=
  object_assign_if_truthy_frame (fun v => decide (v ≠ 0)) [(1, 2), (3, 4)] 3 0 1 (by decide)

/-- C8: on a cache miss, `cached(f, key)` invokes `f` exactly once (the
returned value and effect state are exactly one application of `f`) and
stores the result; the immediately following call with the same key returns
the same stored value and leaves both the cache and the effect state
untouched, for any function `g` — in particular `f` is not invoked again. -/
theorem cached_memoizes {T : Type u} {σ : Type v} :
    ∀ (f : σ → T × σ) (key : String) (c0 : List (String × T)) (s0 : σ),
      lookupEntry c0 key = none →
      (cached f key (c0, s0) =
        ((f s0).1, (insert_entry c0 (key, (f s0).1), (f s0).2))) ∧
      (∀ g : σ → T × σ,
        cached g key (cached f key (c0, s0)).2 =
          ((cached f key (c0, s0)).1, (cached f key (c0, s0)).2)) := by
  intro f key c0 s0 hmiss
  have h1 : cached f key (c0, s0) =
      ((f s0).1, (insert_entry c0 (key, (f s0).1), (f s0).2)) := by
    unfold cached
    rw [hmiss]
  refine ⟨h1, ?_⟩
  intro g
  rw [h1]
  have h2 : lookupEntry (insert_entry c0 (key, (f s0).1)) key = some (f s0).1 := by
    rw [lookupEntry_insert]
    exact if_pos rfl
  unfold cached
  rw [h2]

theorem cached_memoizes_witness :
    (cached (fun n : Nat => (7, n + 1)) "k" ([], 0) = (7, ([("k", 7)], 1))) ∧
    (∀ g : Nat → Nat × Nat,
      cached g "k" (cached (fun n : Nat => (7, n + 1)) "k" ([], 0)).2 =
        ((cached (fun n : Nat => (7, n + 1)) "k" ([], 0)).1,
          (cached (fun n : Nat => (7, n + 1)) "k" ([], 0)).2)) :=
  cached_memoizes (fun n : Nat => (7, n + 1)) "k" [] 0 rfl

/-! ### `jsSlice` computations and `cycle` -/

theorem jsSlice_nonneg_to_len {α : Type u} (arr : List α) (s : Int)
    (h0 : 0 ≤ s) (h1 : s ≤ (arr.length : Int)) :
    jsSlice arr s (arr.length : Int) = arr.drop s.toNat := by
  simp only [jsSlice]
  rw [if_neg (by omega : ¬ s < 0), if_neg (by omega : ¬ (arr.length : Int) < 0)]
  have e1 : min s (arr.length : Int) = s := by omega
  have e2 : min (arr.length : Int) (arr.length : Int) = (arr.length : Int) := by omega
  rw [e1, e2]
  refine List.take_of_length_le ?_
  rw [List.length_drop]
  omega

theorem jsSlice_zero_to {α : Type u} (arr : List α) (e : Int)
    (h0 : 0 ≤ e) (h1 : e ≤ (arr.length : Int)) :
    jsSlice arr 0 e = arr.take e.toNat := by
  simp only [jsSlice]
  rw [if_neg (by omega : ¬ (0 : Int) < 0), if_neg (by omega : ¬ e < 0)]
  have e1 : min (0 : Int) (arr.length : Int) = 0 := by omega
  have e2 : min e (arr.length : Int) = e := by omega
  rw [e1, e2, Int.toNat_zero, List.drop_zero]
  congr 1
  omega

theorem jsSlice_neg_to_len {α : Type u} (arr : List α) (s : Int)
    (h0 : -(arr.length : Int) ≤ s) (h1 : s < 0) :
    jsSlice arr s (arr.length : Int) = arr.drop ((arr.length : Int) + s).toNat := by
  simp only [jsSlice]
  rw [if_pos h1, if_neg (by omega : ¬ (arr.length : Int) < 0)]
  have e1 : max ((arr.length : Int) + s) 0 = (arr.length : Int) + s := by omega
  have e2 : min (arr.length : Int) (arr.length : Int) = (arr.length : Int) := by omega
  rw [e1, e2]
  refine List.take_of_length_le ?_
  rw [List.length_drop]
  omega

theorem jsSlice_zero_to_neg {α : Type u} (arr : List α) (e : Int)
    (h0 : -(arr.length : Int) ≤ e) (h1 : e < 0) :
    jsSlice arr 0 e = arr.take ((arr.length : Int) + e).toNat := by
  simp only [jsSlice]
  rw [if_neg (by omega : ¬ (0 : Int) < 0), if_pos h1]
  have e1 : min (0 : Int) (arr.length : Int) = 0 := by omega
  have e2 : max ((arr.length : Int) + e) 0 = (arr.length : Int) + e := by omega
  rw [e1, e2, Int.toNat_zero, List.drop_zero]
  congr 1
  omega

theorem cycle_left_eq_rotate {α : Type u} (arr : List α) (n : Int) (h : arr ≠ []) :
    cycle arr n Dir.left = arr.rotate ((n % (arr.length : Int)).toNat) := by
  have hlen : 0 < arr.length := List.length_pos.mpr h
  have hL : (0 : Int) < (arr.length : Int) := by exact_mod_cast hlen
  have hub := Int.tmod_lt_of_pos n hL
  have hlb := tmod_gt_neg (i := n) hL
  have hk : ((n % (arr.length : Int)).toNat) ≤ arr.length := by
    have := Int.emod_lt_of_pos n hL
    omega
  unfold cycle
  rw [if_neg (by omega)]
  show jsSlice arr (n.tmod (arr.length : Int)) (arr.length : Int) ++
      jsSlice arr 0 (n.tmod (arr.length : Int)) = _
  rw [List.rotate_eq_drop_append_take hk]
  by_cases hn : 0 ≤ n.tmod (arr.length : Int)
  · have heq : n.tmod (arr.length : Int) = n % (arr.length : Int) := by
      have h1 := jsmod_eq_emod n hL
      have h2 : (n.tmod (arr.length : Int) + (arr.length : Int)) % (arr.length : Int)
          = n.tmod (arr.length : Int) % (arr.length : Int) := by
        have := Int.add_mul_emod_self_left (a := n.tmod (arr.length : Int))
          (b := (arr.length : Int)) (c := 1)
        rwa [Int.mul_one] at this
      rw [Int.tmod_eq_emod (by omega) (by omega), h2, Int.emod_eq_of_lt hn hub] at h1
      exact h1
    rw [jsSlice_nonneg_to_len arr _ hn (le_of_lt hub),
      jsSlice_zero_to arr _ hn (le_of_lt hub), heq]
  · have heq : n.tmod (arr.length : Int) + (arr.length : Int) = n % (arr.length : Int) := by
      have h1 := jsmod_eq_emod n hL
      rw [Int.tmod_eq_of_lt (by omega) (by omega)] at h1
      exact h1
    rw [jsSlice_neg_to_len arr _ (by omega) (by omega),
      jsSlice_zero_to_neg arr _ (by omega) (by omega),
      show (arr.length : Int) + n.tmod (arr.length : Int)
        = n.tmod (arr.length : Int) + (arr.length : Int) from Int.add_comm _ _, heq]

theorem emod_toNat_add (i n : Int) {len : Nat} (h : 0 < len) :
    ((i % (len : Int)).toNat + (n % (len : Int)).toNat) % len
      = ((i + n) % (len : Int)).toNat := by
  have hL : (0 : Int) < (len : Int) := by exact_mod_cast h
  have hne : (len : Int) ≠ 0 := by omega
  have hi0 := Int.emod_nonneg i hne
  have hi1 := Int.emod_lt_of_pos i hL
  have hn0 := Int.emod_nonneg n hne
  have hn1 := Int.emod_lt_of_pos n hL
  have hadd := Int.add_emod i n (len : Int)
  have ha : ((i % (len : Int)).toNat : Int) = i % (len : Int) := Int.toNat_of_nonneg hi0
  have hb : ((n % (len : Int)).toNat : Int) = n % (len : Int) := Int.toNat_of_nonneg hn0
  by_cases hc : (i % (len : Int)).toNat + (n % (len : Int)).toNat < len
  · have hge : 0 ≤ i % (len : Int) + n % (len : Int) := by omega
    have hlt : i % (len : Int) + n % (len : Int) < (len : Int) := by omega
    rw [Nat.mod_eq_of_lt hc, hadd, Int.emod_eq_of_lt hge hlt]
    omega
  · have hge2 : len ≤ (i % (len : Int)).toNat + (n % (len : Int)).toNat := by omega
    have hlt2 : (i % (len : Int)).toNat + (n % (len : Int)).toNat - len < len := by omega
    rw [Nat.mod_eq_sub_mod hge2, Nat.mod_eq_of_lt hlt2, hadd]
    have h2 : (i % (len : Int) + n % (len : Int)) % (len : Int)
        = (i % (len : Int) + n % (len : Int) - (len : Int)) % (len : Int) := by
      have := Int.add_mul_emod_self_left
        (a := i % (len : Int) + n % (len : Int) - (len : Int)) (b := (len : Int)) (c := 1)
      rw [Int.mul_one] at this
      rw [← this]
      congr 1
      ring
    have hge3 : 0 ≤ i % (len : Int) + n % (len : Int) - (len : Int) := by omega
    have hlt3 : i % (len : Int) + n % (len : Int) - (len : Int) < (len : Int) := by omega
    rw [h2, Int.emod_eq_of_lt hge3 hlt3]
    omega

theorem at_cycle_left_aux {α : Type u} (s : List α) (n i : Int) :
    «at» (cycle s n Dir.left) i = «at» s (i + n) := by
  rcases eq_or_ne s [] with rfl | h
  · rfl
  · have hlen : 0 < s.length := List.length_pos.mpr h
    have hL : (0 : Int) < (s.length : Int) := by exact_mod_cast hlen
    have hLne : (s.length : Int) ≠ 0 := by omega
    rw [cycle_left_eq_rotate s n h]
    have hrot_ne : s.rotate ((n % (s.length : Int)).toNat) ≠ [] :=
      fun hnil => h (List.rotate_eq_nil_iff.mp hnil)
    rw [at_eq_get _ i hrot_ne, at_eq_get s (i + n) h, List.length_rotate,
      List.get?_eq_getElem?, List.get?_eq_getElem?]
    have hm : (i % (s.length : Int)).toNat < s.length := by
      have h1 := Int.emod_nonneg i hLne
      have h2 := Int.emod_lt_of_pos i hL
      omega
    rw [List.getElem?_rotate hm]
    congr 1
    exact emod_toNat_add i n hlen

/-- C6: cyclic indexed access commutes with left rotation:
`at(cycle(s, n, 'left'), i) = at(s, i + n)` for every sequence `s` and all
integers `n` and `i`; additionally a rotation amount of 0 returns the input
unchanged (either direction), and an empty input returns empty. -/
theorem cycle_at_left {α : Type u} :
    (∀ (s : List α) (n i : Int), «at» (cycle s n Dir.left) i = «at» s (i + n)) ∧
    (∀ (s : List α) (d : Dir), cycle s 0 d = s) ∧
    (∀ (n : Int) (d : Dir), cycle ([] : List α) n d = []) := by
  refine ⟨at_cycle_left_aux, ?_, ?_⟩
  · intro s d
    rcases eq_or_ne s [] with rfl | h
    · cases d <;> rfl
    · have hlen : 0 < s.length := List.length_pos.mpr h
      have hL : (0 : Int) ≤ (s.length : Int) := by omega
      unfold cycle
      rw [if_neg (by omega)]
      cases d
      · show jsSlice s ((0 : Int).tmod (s.length : Int)) (s.length : Int) ++
            jsSlice s 0 ((0 : Int).tmod (s.length : Int)) = s
        rw [Int.zero_tmod, jsSlice_nonneg_to_len s 0 (le_refl 0) hL,
          jsSlice_zero_to s 0 (le_refl 0) hL, Int.toNat_zero, List.drop_zero,
          List.take_zero, List.append_nil]
      · show jsSlice s ((s.length : Int) - (0 : Int).tmod (s.length : Int)) (s.length : Int) ++
            jsSlice s 0 ((s.length : Int) - (0 : Int).tmod (s.length : Int)) = s
        rw [Int.zero_tmod, Int.sub_zero,
          jsSlice_nonneg_to_len s (s.length : Int) hL (le_refl _),
          jsSlice_zero_to s (s.length : Int) hL (le_refl _), Int.toNat_natCast,
          List.drop_length, List.take_length, List.nil_append]
  · intro n d
    rfl

/-! ### `pairs` / `cyclic_pairs` -/

theorem jsSlice_zero_negOne {α : Type u} (l : List α) : jsSlice l 0 (-1) = l.dropLast := by
  simp only [jsSlice]
  rw [if_neg (by omega : ¬ (0 : Int) < 0), if_pos (by omega : (-1 : Int) < 0)]
  have e1 : min (0 : Int) (l.length : Int) = 0 := by omega
  rw [e1, Int.toNat_zero, List.drop_zero]
  have e2 : (max ((l.length : Int) + -1) 0 - 0).toNat = l.length - 1 := by omega
  rw [e2, ← List.dropLast_eq_take]

theorem jsSlice_one_len {α : Type u} (l : List α) :
    jsSlice l 1 (l.length : Int) = l.drop 1 := by
  rcases eq_or_ne l [] with rfl | h
  · rfl
  · have hlen : 0 < l.length := List.length_pos.mpr h
    rw [jsSlice_nonneg_to_len l 1 (by omega) (by omega)]
    rfl

theorem cyclic_pairs_cons {α : Type u} (a : α) (t : List α) :
    cyclic_pairs (a :: t) =
      (List.range (t.length + 1)).map
        (fun i => [jsIndex (a :: t) i, jsIndex (t ++ [a]) i]) := by
  show pairs ((a :: t) ++ [a]) = _
  unfold pairs
  rw [jsSlice_zero_negOne, jsSlice_one_len, List.dropLast_concat,
    show ((a :: t) ++ [a]).drop 1 = t ++ [a] from rfl]
  have hmin : zip_min (a :: t) [t ++ [a]] = t.length + 1 := by
    unfold zip_min
    rw [List.foldl_cons, List.foldl_nil, List.length_append, List.length_cons]
    simp
  rw [zip_cons, hmin]
  rfl

/-- C7: for every nonempty sequence `s`, `cyclic_pairs(s)` has length
`length(s)` and its last tuple is the wrap-around pair `(s[-1], s[0])`;
`cyclic_pairs` of the empty sequence is empty. -/
theorem cyclic_pairs_spec {α : Type u} :
    (cyclic_pairs ([] : List α) = []) ∧
    (∀ (s : List α) (h : s ≠ []),
      (cyclic_pairs s).length = s.length ∧
      (cyclic_pairs s).getLast? = some [some (s.getLast h), some (s.head h)]) := by
  refine ⟨rfl, ?_⟩
  rintro (_ | ⟨a, t⟩) h
  · exact absurd rfl h
  rw [cyclic_pairs_cons]
  constructor
  · rw [List.length_map, List.length_range, List.length_cons]
  · rw [List.getLast?_eq_getElem?, List.length_map, List.length_range,
      List.getElem?_map, List.getElem?_range (by omega), Option.map_some']
    simp only [Nat.add_sub_cancel]
    have h1 : jsIndex (a :: t) t.length = some ((a :: t).getLast h) := by
      show (a :: t).get? t.length = _
      rw [show t.length = (a :: t).length - 1 from by rw [List.length_cons, Nat.add_sub_cancel],
        ← List.getLast?_eq_get?]
      exact List.getLast?_eq_getLast _ h
    have h2 : jsIndex (t ++ [a]) t.length = some a := by
      show (t ++ [a]).get? t.length = _
      rw [List.get?_eq_getElem?, List.getElem?_append_right (Nat.le_refl t.length)]
      simp
    rw [h1, h2]
    rfl

theorem cyclic_pairs_spec_witness :
    (cyclic_pairs [1, 2, 3]).length = ([1, 2, 3] : List Nat).length ∧
    (cyclic_pairs [1, 2, 3]).getLast? =
      some [some (([1, 2, 3] : List Nat).getLast (by decide)),
        some (([1, 2, 3] : List Nat).head (by decide))] :=
  cyclic_pairs_spec.2 [1, 2, 3] (by decide)

end FunctionalUtilities
